import Mathlib

/-!
Verification of the `field.rs` module of `rs-soroban-ultrahonk`
(`src/ultrahonk-soroban-verifier/src/field.rs`).

The module wraps the BN254 scalar field `Fr` (modulus `frModulus`, a 254-bit
prime) and provides:
  * hex-string construction (`normalize_hex`, `Fr.from_str`),
  * big-endian 32-byte encode/decode (`Fr.from_bytes`, `Fr.to_bytes`),
  * delegated arithmetic (`ark_ff`: add, sub, mul, neg, `inverse`, `pow`),
  * Montgomery batch inversion (`batch_inverse`).

Shallow embedding conventions:
  * Field elements are `ZMod frModulus`; the `ark_ff` arithmetic primitives
    (trusted external dependency per the spec, §6) are modelled by the
    mathematical field operations on `ZMod frModulus`, and `ark`'s
    `Fr::inverse` (which returns `None` exactly on zero) by
    `if x = 0 then none else some x⁻¹`.
  * Rust strings become `List Char`, byte arrays become `List Nat`
    (each entry `< 256`).
  * A Rust panic (from `.expect`, from `usize` subtraction overflow /
    out-of-range slice indexing, or from a failed `assert_eq!`) is the
    `panic` constructor of the corresponding result type; the static panic
    and error message strings are not modelled, only which outcome occurs.
-/

set_option maxRecDepth 100000

/-- The BN254 scalar-field modulus (the order of `ark_bn254::Fr`). -/
def frModulus : Nat :=
  21888242871839275222246405745257275088548364400416034343698204186575808495617

/-- Fuel-driven binary modular exponentiation, used to evaluate huge field
powers inside proofs by kernel reduction. -/
def powModAux : Nat → Nat → Nat → Nat → Nat
  | 0, _, _, m => 1 % m
  | fuel + 1, b, e, m =>
    if e = 0 then 1 % m
    else
      let r := powModAux fuel (b * b % m) (e / 2) m
      if e % 2 = 1 then r * b % m else r

/-- `powMod a e m = a ^ e % m`, computed by repeated squaring. -/
def powMod (a e m : Nat) : Nat := powModAux (e + 1) (a % m) e m

theorem powModAux_eq (fuel : Nat) :
    ∀ b e m, 0 < m → e < 2 ^ fuel → powModAux fuel b e m = b ^ e % m := by
  induction fuel with
  | zero =>
    intro b e m _ he
    have : e = 0 := Nat.lt_one_iff.mp (by simpa using he)
    subst this
    simp [powModAux]
  | succ fuel ih =>
    intro b e m hm he
    by_cases he0 : e = 0
    · subst he0; simp [powModAux]
    · have hdiv : e / 2 < 2 ^ fuel := by
        have : e < 2 ^ fuel * 2 := by
          simpa [Nat.pow_succ] using he
        exact Nat.div_lt_iff_lt_mul (by norm_num) |>.mpr this
      have hr : powModAux fuel (b * b % m) (e / 2) m = (b * b) ^ (e / 2) % m := by
        rw [ih (b * b % m) (e / 2) m hm hdiv, ← Nat.pow_mod]
      have hsplit : 2 * (e / 2) + e % 2 = e := Nat.div_add_mod e 2
      by_cases hodd : e % 2 = 1
      · have : powModAux (fuel + 1) b e m = (b * b) ^ (e / 2) % m * b % m := by
          simp [powModAux, he0, hodd, hr]
        rw [this, Nat.mod_mul_mod]
        have : (b * b) ^ (e / 2) * b = b ^ e := by
          rw [← pow_two, ← pow_mul, ← pow_succ]
          rw [show 2 * (e / 2) + 1 = e by omega]
        rw [this]
      · have heven : e % 2 = 0 := Nat.mod_two_ne_one.mp hodd
        have : powModAux (fuel + 1) b e m = (b * b) ^ (e / 2) % m := by
          simp [powModAux, he0, hodd, hr]
        rw [this]
        have : (b * b) ^ (e / 2) = b ^ e := by
          rw [← pow_two, ← pow_mul]
          rw [show 2 * (e / 2) = e by omega]
        rw [this]

theorem powMod_eq (a e m : Nat) (hm : 0 < m) : powMod a e m = a ^ e % m := by
  have he : e < 2 ^ (e + 1) :=
    lt_of_lt_of_le (Nat.lt_two_pow e) (Nat.pow_le_pow_right (by norm_num) (Nat.le_succ e))
  rw [powMod, powModAux_eq (e + 1) (a % m) e m hm he, ← Nat.pow_mod]

theorem powMod_lt (a e m : Nat) (hm : 0 < m) : powMod a e m < m := by
  rw [powMod_eq a e m hm]; exact Nat.mod_lt _ hm

theorem cast_powMod (n a e : Nat) (hn : 0 < n) :
    ((powMod a e n : Nat) : ZMod n) = (a : ZMod n) ^ e := by
  rw [powMod_eq a e n hn, ZMod.natCast_mod, Nat.cast_pow]

theorem pow_eq_one_of_powMod (n a e : Nat) (hn : 0 < n)
    (h : powMod a e n = 1) : (a : ZMod n) ^ e = 1 := by
  rw [← cast_powMod n a e hn, h, Nat.cast_one]

theorem pow_ne_one_of_powMod (n a e : Nat) (hn : 1 < n)
    (h : powMod a e n ≠ 1) : (a : ZMod n) ^ e ≠ 1 := by
  have h0 : 0 < n := lt_trans one_pos hn
  rw [← cast_powMod n a e h0]
  intro hc
  apply h
  have h1 : ((1 : Nat) : ZMod n) = (1 : ZMod n) := Nat.cast_one
  rw [← h1] at hc
  have hv := congrArg ZMod.val hc
  rwa [ZMod.val_cast_of_lt (powMod_lt a e n h0), ZMod.val_cast_of_lt hn] at hv

/-!
Primality of `frModulus`, by a Pratt / Lucas certificate chain.
Each certificate exhibits a primitive root `g` and checks `g ^ (n-1) = 1`
together with `g ^ ((n-1)/q) ≠ 1` for every prime `q` dividing `n - 1`.
-/

theorem prime_405928799 : Nat.Prime 405928799 := by
  have hfac : (405928799 : Nat) - 1 = 2 * 11 * 3691 * 4999 := by decide
  apply lucas_primality 405928799 ((22 : Nat) : ZMod 405928799)
  · exact pow_eq_one_of_powMod _ _ _ (by decide) (by decide)
  · intro q hq hdvd
    rw [hfac] at hdvd
    simp only [Nat.Prime.dvd_mul hq, or_assoc] at hdvd
    rcases hdvd with h | h | h | h <;>
      rw [(Nat.prime_dvd_prime_iff_eq hq (by norm_num)).mp h] <;>
      exact pow_ne_one_of_powMod _ _ _ (by decide) (by decide)

theorem prime_12048837557 : Nat.Prime 12048837557 := by
  have hfac : (12048837557 : Nat) - 1 = 2 ^ 2 * 7 ^ 2 * 661 * 93001 := by decide
  apply lucas_primality 12048837557 ((2 : Nat) : ZMod 12048837557)
  · exact pow_eq_one_of_powMod _ _ _ (by decide) (by decide)
  · intro q hq hdvd
    rw [hfac] at hdvd
    simp only [Nat.Prime.dvd_mul hq, or_assoc] at hdvd
    rcases hdvd with h | h | h | h
    · rw [(Nat.prime_dvd_prime_iff_eq hq (by norm_num)).mp (hq.dvd_of_dvd_pow h)]
      exact pow_ne_one_of_powMod _ _ _ (by decide) (by decide)
    · rw [(Nat.prime_dvd_prime_iff_eq hq (by norm_num)).mp (hq.dvd_of_dvd_pow h)]
      exact pow_ne_one_of_powMod _ _ _ (by decide) (by decide)
    · rw [(Nat.prime_dvd_prime_iff_eq hq (by norm_num)).mp h]
      exact pow_ne_one_of_powMod _ _ _ (by decide) (by decide)
    · rw [(Nat.prime_dvd_prime_iff_eq hq (by norm_num)).mp h]
      exact pow_ne_one_of_powMod _ _ _ (by decide) (by decide)

theorem prime_5156902474397 : Nat.Prime 5156902474397 := by
  have hfac : (5156902474397 : Nat) - 1 = 2 ^ 2 * 107 * 12048837557 := by decide
  apply lucas_primality 5156902474397 ((2 : Nat) : ZMod 5156902474397)
  · exact pow_eq_one_of_powMod _ _ _ (by decide) (by decide)
  · intro q hq hdvd
    rw [hfac] at hdvd
    simp only [Nat.Prime.dvd_mul hq, or_assoc] at hdvd
    rcases hdvd with h | h | h
    · rw [(Nat.prime_dvd_prime_iff_eq hq (by norm_num)).mp (hq.dvd_of_dvd_pow h)]
      exact pow_ne_one_of_powMod _ _ _ (by decide) (by decide)
    · rw [(Nat.prime_dvd_prime_iff_eq hq (by norm_num)).mp h]
      exact pow_ne_one_of_powMod _ _ _ (by decide) (by decide)
    · rw [(Nat.prime_dvd_prime_iff_eq hq prime_12048837557).mp h]
      exact pow_ne_one_of_powMod _ _ _ (by decide) (by decide)

theorem prime_1670836401704629 : Nat.Prime 1670836401704629 := by
  have hfac : (1670836401704629 : Nat) - 1 = 2 ^ 2 * 3 ^ 4 * 5156902474397 := by decide
  apply lucas_primality 1670836401704629 ((2 : Nat) : ZMod 1670836401704629)
  · exact pow_eq_one_of_powMod _ _ _ (by decide) (by decide)
  · intro q hq hdvd
    rw [hfac] at hdvd
    simp only [Nat.Prime.dvd_mul hq, or_assoc] at hdvd
    rcases hdvd with h | h | h
    · rw [(Nat.prime_dvd_prime_iff_eq hq (by norm_num)).mp (hq.dvd_of_dvd_pow h)]
      exact pow_ne_one_of_powMod _ _ _ (by decide) (by decide)
    · rw [(Nat.prime_dvd_prime_iff_eq hq (by norm_num)).mp (hq.dvd_of_dvd_pow h)]
      exact pow_ne_one_of_powMod _ _ _ (by decide) (by decide)
    · rw [(Nat.prime_dvd_prime_iff_eq hq prime_5156902474397).mp h]
      exact pow_ne_one_of_powMod _ _ _ (by decide) (by decide)

theorem prime_639533339 : Nat.Prime 639533339 := by
  have hfac : (639533339 : Nat) - 1 = 2 * 229 * 853 * 1637 := by decide
  apply lucas_primality 639533339 ((2 : Nat) : ZMod 639533339)
  · exact pow_eq_one_of_powMod _ _ _ (by decide) (by decide)
  · intro q hq hdvd
    rw [hfac] at hdvd
    simp only [Nat.Prime.dvd_mul hq, or_assoc] at hdvd
    rcases hdvd with h | h | h | h <;>
      rw [(Nat.prime_dvd_prime_iff_eq hq (by norm_num)).mp h] <;>
      exact pow_ne_one_of_powMod _ _ _ (by decide) (by decide)

theorem prime_65865678001877903 : Nat.Prime 65865678001877903 := by
  have hfac : (65865678001877903 : Nat) - 1 = 2 * 83 * 379 * 1637 * 639533339 := by decide
  apply lucas_primality 65865678001877903 ((5 : Nat) : ZMod 65865678001877903)
  · exact pow_eq_one_of_powMod _ _ _ (by decide) (by decide)
  · intro q hq hdvd
    rw [hfac] at hdvd
    simp only [Nat.Prime.dvd_mul hq, or_assoc] at hdvd
    rcases hdvd with h | h | h | h | h
    · rw [(Nat.prime_dvd_prime_iff_eq hq (by norm_num)).mp h]
      exact pow_ne_one_of_powMod _ _ _ (by decide) (by decide)
    · rw [(Nat.prime_dvd_prime_iff_eq hq (by norm_num)).mp h]
      exact pow_ne_one_of_powMod _ _ _ (by decide) (by decide)
    · rw [(Nat.prime_dvd_prime_iff_eq hq (by norm_num)).mp h]
      exact pow_ne_one_of_powMod _ _ _ (by decide) (by decide)
    · rw [(Nat.prime_dvd_prime_iff_eq hq (by norm_num)).mp h]
      exact pow_ne_one_of_powMod _ _ _ (by decide) (by decide)
    · rw [(Nat.prime_dvd_prime_iff_eq hq prime_639533339).mp h]
      exact pow_ne_one_of_powMod _ _ _ (by decide) (by decide)

theorem prime_1593227 : Nat.Prime 1593227 := by norm_num

theorem prime_13818364434197438864469338081 :
    Nat.Prime 13818364434197438864469338081 := by
  have hfac : (13818364434197438864469338081 : Nat) - 1 =
      2 ^ 5 * 5 * 823 * 1593227 * 65865678001877903 := by decide
  apply lucas_primality 13818364434197438864469338081
    ((3 : Nat) : ZMod 13818364434197438864469338081)
  · exact pow_eq_one_of_powMod _ _ _ (by decide) (by decide)
  · intro q hq hdvd
    rw [hfac] at hdvd
    simp only [Nat.Prime.dvd_mul hq, or_assoc] at hdvd
    rcases hdvd with h | h | h | h | h
    · rw [(Nat.prime_dvd_prime_iff_eq hq (by norm_num)).mp (hq.dvd_of_dvd_pow h)]
      exact pow_ne_one_of_powMod _ _ _ (by decide) (by decide)
    · rw [(Nat.prime_dvd_prime_iff_eq hq (by norm_num)).mp h]
      exact pow_ne_one_of_powMod _ _ _ (by decide) (by decide)
    · rw [(Nat.prime_dvd_prime_iff_eq hq (by norm_num)).mp h]
      exact pow_ne_one_of_powMod _ _ _ (by decide) (by decide)
    · rw [(Nat.prime_dvd_prime_iff_eq hq prime_1593227).mp h]
      exact pow_ne_one_of_powMod _ _ _ (by decide) (by decide)
    · rw [(Nat.prime_dvd_prime_iff_eq hq prime_65865678001877903).mp h]
      exact pow_ne_one_of_powMod _ _ _ (by decide) (by decide)

/-- The BN254 scalar-field modulus is prime. -/
theorem frModulus_prime : Nat.Prime frModulus := by
  have hfac : frModulus - 1 =
      2 ^ 28 * 3 ^ 2 * 13 * 29 * 983 * 11003 * 237073 * 405928799 *
        1670836401704629 * 13818364434197438864469338081 := by decide
  apply lucas_primality frModulus ((5 : Nat) : ZMod frModulus)
  · exact pow_eq_one_of_powMod _ _ _ (by decide) (by decide)
  · intro q hq hdvd
    rw [hfac] at hdvd
    simp only [Nat.Prime.dvd_mul hq, or_assoc] at hdvd
    rcases hdvd with h | h | h | h | h | h | h | h | h | h
    · rw [(Nat.prime_dvd_prime_iff_eq hq (by norm_num)).mp (hq.dvd_of_dvd_pow h)]
      exact pow_ne_one_of_powMod _ _ _ (by decide) (by decide)
    · rw [(Nat.prime_dvd_prime_iff_eq hq (by norm_num)).mp (hq.dvd_of_dvd_pow h)]
      exact pow_ne_one_of_powMod _ _ _ (by decide) (by decide)
    · rw [(Nat.prime_dvd_prime_iff_eq hq (by norm_num)).mp h]
      exact pow_ne_one_of_powMod _ _ _ (by decide) (by decide)
    · rw [(Nat.prime_dvd_prime_iff_eq hq (by norm_num)).mp h]
      exact pow_ne_one_of_powMod _ _ _ (by decide) (by decide)
    · rw [(Nat.prime_dvd_prime_iff_eq hq (by norm_num)).mp h]
      exact pow_ne_one_of_powMod _ _ _ (by decide) (by decide)
    · rw [(Nat.prime_dvd_prime_iff_eq hq (by norm_num)).mp h]
      exact pow_ne_one_of_powMod _ _ _ (by decide) (by decide)
    · rw [(Nat.prime_dvd_prime_iff_eq hq (by norm_num)).mp h]
      exact pow_ne_one_of_powMod _ _ _ (by decide) (by decide)
    · rw [(Nat.prime_dvd_prime_iff_eq hq prime_405928799).mp h]
      exact pow_ne_one_of_powMod _ _ _ (by decide) (by decide)
    · rw [(Nat.prime_dvd_prime_iff_eq hq prime_1670836401704629).mp h]
      exact pow_ne_one_of_powMod _ _ _ (by decide) (by decide)
    · rw [(Nat.prime_dvd_prime_iff_eq hq prime_13818364434197438864469338081).mp h]
      exact pow_ne_one_of_powMod _ _ _ (by decide) (by decide)

instance : Fact (Nat.Prime frModulus) := ⟨frModulus_prime⟩

instance : NeZero frModulus := ⟨by decide⟩

/-!
Shallow embedding of `field.rs`.
-/

/-- The field-element type: `Fr(pub ArkFr)` in the source, i.e. the BN254
scalar field, modelled as the mathematical field `ZMod frModulus`. -/
abbrev Fr : Type := ZMod frModulus

/-- Hex-digit test of the `hex` crate's decoder: the bytes `b'0'..=b'9'`,
`b'a'..=b'f'`, `b'A'..=b'F'` are the valid digits (case-insensitive). -/
def isHexDigit (c : Char) : Bool :=
  ('0' ≤ c && c ≤ '9') || ('a' ≤ c && c ≤ 'f') || ('A' ≤ c && c ≤ 'F')

/-- Numeric value of a hex digit (as decoded by the `hex` crate). -/
def hexVal (c : Char) : Nat :=
  if '0' ≤ c && c ≤ '9' then c.toNat - '0'.toNat
  else if 'a' ≤ c && c ≤ 'f' then c.toNat - 'a'.toNat + 10
  else c.toNat - 'A'.toNat + 10

/-- Models `hex::decode`: pairs of hex digits become bytes; `none` on an
odd-length input or any non-hex-digit character (the crate's `FromHexError`,
which `Fr::from_str` turns into a panic via `.expect`). -/
def hexDecode : List Char → Option (List Nat)
  | [] => some []
  | [_] => none
  | a :: b :: rest =>
    if isHexDigit a && isHexDigit b then
      match hexDecode rest with
      | some t => some ((hexVal a * 16 + hexVal b) :: t)
      | none => none
    else none

/-- Models `s.trim_start_matches("0x")`: repeatedly strip a leading
lowercase `"0x"` (note: `"0X"` is not matched — the call is case-sensitive). -/
def trimPrefix0x : List Char → List Char
  | a :: b :: rest => if a = '0' ∧ b = 'x' then trimPrefix0x rest else a :: b :: rest
  | l => l

/-- Models `normalize_hex` (field.rs lines 11–21): strip the `0x` prefix and
left-pad with a single `'0'` digit when the digit count is odd. -/
def normalize_hex (s : List Char) : List Char :=
  let raw := trimPrefix0x s
  if raw.length % 2 = 1 then '0' :: raw else raw

/-- Big-endian interpretation of a byte sequence as an unsigned integer. -/
def bytesToNatBE (l : List Nat) : Nat := l.foldl (fun acc d => acc * 256 + d) 0

/-- Big-endian encoding of `v` into exactly `n` bytes (most significant
first); this is what `to_bytes`'s limb-serialization loop produces. -/
def natToBytesBE : Nat → Nat → List Nat
  | 0, _ => []
  | n + 1, v => natToBytesBE n (v / 256) ++ [v % 256]

/-- Models `Fr::from_u64` (`ArkFr::from(x)` on a `u64`). -/
def Fr.from_u64 (x : Nat) : Fr := (x : Fr)

/-- Models `Fr::from_bytes` (field.rs lines 43–48): reverse to little-endian
and `ArkFr::from_le_bytes_mod_order`, i.e. interpret big-endian and reduce
mod `frModulus`. -/
def Fr.from_bytes (b : List Nat) : Fr := ((bytesToNatBE b : Nat) : Fr)

/-- Models `Fr::to_bytes` (field.rs lines 52–59): serialize the canonical
(`into_bigint`) value as 32 big-endian bytes. -/
def Fr.to_bytes (x : Fr) : List Nat := natToBytesBE 32 x.val

/-- Models `Fr::inverse`: `ark_ff`'s field inversion returns `None` exactly
on zero, and the actual inverse otherwise. -/
def Fr.inverse (x : Fr) : Option Fr := if x = 0 then none else some x⁻¹

/-- Models `Fr::pow` (field.rs lines 73–77): the `u128` exponent is truncated
by `bits[0] = exp as u64` (the other three limbs stay zero), after which
`ark_ff`'s `pow` raises to that 64-bit value. -/
def Fr.pow (x : Fr) (e : Nat) : Fr := x ^ (e % 2 ^ 64)

/-- Models `Fr::is_zero`. -/
def Fr.is_zero (x : Fr) : Bool := decide (x = 0)

/-- Outcome of `Fr::from_str`, which returns `Self` and panics (`.expect`,
or `usize` underflow / slice indexing on a >32-byte decode) on bad input. -/
inductive FrResult where
  | ok (v : Fr)
  | panic
  deriving DecidableEq

/-- Models `Fr::from_str` (field.rs lines 34–40): normalize, `hex::decode`
(panic on failure via `.expect`), left-pad the decoded bytes to 32 with
zeros (`32 - bytes.len()` panics when more than 32 bytes were decoded), and
interpret with `from_bytes`. -/
def Fr.from_str (s : List Char) : FrResult :=
  match hexDecode (normalize_hex s) with
  | none => FrResult.panic
  | some bytes =>
    if bytes.length ≤ 32 then
      FrResult.ok (Fr.from_bytes (List.replicate (32 - bytes.length) 0 ++ bytes))
    else FrResult.panic

/-- Outcome of `batch_inverse`: `ok` with the final contents of `out` on
success, `err` with the contents of `out` at the failure point when the
total product is zero (the Rust `Err(&'static str)` — the message text is
not modelled), and `panic` for the `assert_eq!` length-mismatch abort. -/
inductive BatchResult where
  | ok (out : List Fr)
  | err (out : List Fr)
  | panic
  deriving DecidableEq

/-- Step 1 of `batch_inverse` (field.rs lines 97–101): `out[0] = vals[0]`,
then `out[i] = out[i-1] * vals[i]` for `i` in `1..n`. -/
def prefixStep (vals out : List Fr) : List Fr :=
  (List.range (vals.length - 1)).foldl
    (fun o j => o.set (j + 1) (o.getD j 0 * vals.getD (j + 1) 0))
    (out.set 0 (vals.getD 0 0))

/-- Step 3 of `batch_inverse` (field.rs lines 107–110): the backward sweep
`for i in (1..n).rev() { out[i] = inv_acc * out[i-1]; inv_acc *= vals[i] }`,
returning the updated buffer and the final accumulator. -/
def sweepLoop (vals : List Fr) : List Fr → Fr → Nat → List Fr × Fr
  | o, acc, 0 => (o, acc)
  | o, acc, j + 1 =>
    sweepLoop vals (o.set (j + 1) (acc * o.getD j 0)) (acc * vals.getD (j + 1) 0) j

/-- Models `batch_inverse` (field.rs lines 88–114): length-mismatch assert,
early return on `n = 0`, prefix products into `out`, inversion of the total
product (error when it is zero), backward sweep, `out[0] = inv_acc`. -/
def batch_inverse (vals out : List Fr) : BatchResult :=
  if vals.length = out.length then
    if vals.length = 0 then BatchResult.ok out
    else
      let out1 := prefixStep vals out
      match Fr.inverse (out1.getD (vals.length - 1) 0) with
      | none => BatchResult.err out1
      | some inv0 =>
        let sr := sweepLoop vals out1 inv0 (vals.length - 1)
        BatchResult.ok (sr.1.set 0 sr.2)
  else BatchResult.panic

/-!
Byte-encoding lemmas.
-/

theorem natToBytesBE_length (n v : Nat) : (natToBytesBE n v).length = n := by
  induction n generalizing v with
  | zero => rfl
  | succ n ih => simp [natToBytesBE, ih]

theorem natToBytesBE_lt (n v : Nat) : ∀ d ∈ natToBytesBE n v, d < 256 := by
  induction n generalizing v with
  | zero => intro d hd; simp [natToBytesBE] at hd
  | succ n ih =>
    intro d hd
    simp only [natToBytesBE, List.mem_append, List.mem_singleton] at hd
    rcases hd with hd | hd
    · exact ih (v / 256) d hd
    · rw [hd]; exact Nat.mod_lt _ (by norm_num)

theorem bytesToNatBE_append_one (l : List Nat) (d : Nat) :
    bytesToNatBE (l ++ [d]) = bytesToNatBE l * 256 + d := by
  simp [bytesToNatBE, List.foldl_append]

theorem bytesToNatBE_natToBytesBE (n v : Nat) (h : v < 256 ^ n) :
    bytesToNatBE (natToBytesBE n v) = v := by
  induction n generalizing v with
  | zero =>
    have : v = 0 := Nat.lt_one_iff.mp (by simpa using h)
    simp [natToBytesBE, bytesToNatBE, this]
  | succ n ih =>
    have hdiv : v / 256 < 256 ^ n := by
      rw [Nat.div_lt_iff_lt_mul (by norm_num)]
      calc v < 256 ^ (n + 1) := h
        _ = 256 ^ n * 256 := by ring
    rw [natToBytesBE, bytesToNatBE_append_one, ih (v / 256) hdiv]
    omega

theorem bytesToNatBE_lt (b : List Nat) (h : ∀ d ∈ b, d < 256) :
    bytesToNatBE b < 256 ^ b.length := by
  induction b using List.reverseRecOn with
  | nil => simp [bytesToNatBE]
  | append_singleton l d ih =>
    rw [bytesToNatBE_append_one]
    have hl : bytesToNatBE l < 256 ^ l.length :=
      ih (fun x hx => h x (List.mem_append_left _ hx))
    have hd : d < 256 := h d (List.mem_append_right _ (List.mem_singleton_self d))
    calc bytesToNatBE l * 256 + d < (bytesToNatBE l + 1) * 256 := by omega
      _ ≤ 256 ^ l.length * 256 := Nat.mul_le_mul_right _ hl
      _ = 256 ^ (l ++ [d]).length := by simp [List.length_append]; ring

theorem natToBytesBE_bytesToNatBE (b : List Nat) (h : ∀ d ∈ b, d < 256) :
    natToBytesBE b.length (bytesToNatBE b) = b := by
  induction b using List.reverseRecOn with
  | nil => rfl
  | append_singleton l d ih =>
    have hd : d < 256 := h d (List.mem_append_right _ (List.mem_singleton_self d))
    have hl : ∀ x ∈ l, x < 256 := fun x hx => h x (List.mem_append_left _ hx)
    rw [bytesToNatBE_append_one]
    have hlen : (l ++ [d]).length = l.length + 1 := by simp
    rw [hlen, natToBytesBE]
    have h1 : (bytesToNatBE l * 256 + d) / 256 = bytesToNatBE l := by omega
    have h2 : (bytesToNatBE l * 256 + d) % 256 = d := by omega
    rw [h1, h2, ih hl]

/-!
Hex-decoding lemmas.
-/

theorem hexDecode_none_of_bad (l : List Char)
    (h : ∃ c ∈ l, isHexDigit c = false) : hexDecode l = none := by
  induction l using hexDecode.induct with
  | case1 => simp at h
  | case2 a => rfl
  | case3 a b rest hab t ht ih =>
    obtain ⟨c, hc, hbad⟩ := h
    have ha : isHexDigit a = true := by
      rcases Bool.and_eq_true_iff.mp hab with ⟨h1, _⟩; exact h1
    have hb : isHexDigit b = true := by
      rcases Bool.and_eq_true_iff.mp hab with ⟨_, h2⟩; exact h2
    have hcr : c ∈ rest := by
      rcases List.mem_cons.mp hc with rfl | hc'
      · rw [ha] at hbad; cases hbad
      · rcases List.mem_cons.mp hc' with rfl | hc''
        · rw [hb] at hbad; cases hbad
        · exact hc''
    have := ih ⟨c, hcr, hbad⟩
    rw [this] at ht; cases ht
  | case4 a b rest hab ht =>
    simp only [hexDecode, hab, if_true, ht]
  | case5 a b rest hab =>
    simp only [hexDecode, if_neg hab]

theorem hexDecode_some_of_good (l : List Char) (hev : l.length % 2 = 0)
    (hall : ∀ c ∈ l, isHexDigit c = true) :
    ∃ bs, hexDecode l = some bs ∧ bs.length = l.length / 2 := by
  induction l using hexDecode.induct with
  | case1 => exact ⟨[], rfl, rfl⟩
  | case2 a => simp at hev
  | case3 a b rest hab t ht ih =>
    have hev' : rest.length % 2 = 0 := by simp at hev; omega
    have hall' : ∀ c ∈ rest, isHexDigit c = true := fun c hc =>
      hall c (List.mem_cons_of_mem a (List.mem_cons_of_mem b hc))
    obtain ⟨bs, hbs, hlen⟩ := ih hev' hall'
    rw [ht] at hbs
    cases hbs
    refine ⟨(hexVal a * 16 + hexVal b) :: t, ?_, ?_⟩
    · simp only [hexDecode, hab, if_true, ht]
    · simp only [List.length_cons]
      omega
  | case4 a b rest hab ht ih =>
    have hev' : rest.length % 2 = 0 := by simp at hev; omega
    have hall' : ∀ c ∈ rest, isHexDigit c = true := fun c hc =>
      hall c (List.mem_cons_of_mem a (List.mem_cons_of_mem b hc))
    obtain ⟨bs, hbs, _⟩ := ih hev' hall'
    rw [ht] at hbs; cases hbs
  | case5 a b rest hab =>
    exfalso
    apply hab
    rw [hall a (List.mem_cons_self a _), hall b (List.mem_cons_of_mem a (List.mem_cons_self b _))]
    rfl

theorem trimPrefix0x_cons_cons (a b : Char) (rest : List Char) :
    trimPrefix0x (a :: b :: rest) =
      if a = '0' ∧ b = 'x' then trimPrefix0x rest else a :: b :: rest := by
  rfl

theorem trimPrefix0x_eq_self (l : List Char)
    (h : ∀ c ∈ l, isHexDigit c = true) : trimPrefix0x l = l := by
  match l with
  | [] => rfl
  | [a] => rfl
  | a :: b :: rest =>
    rw [trimPrefix0x_cons_cons, if_neg]
    rintro ⟨_, rfl⟩
    have := h 'x' (List.mem_cons_of_mem a (List.mem_cons_self 'x' rest))
    simp [isHexDigit] at this

theorem normalize_hex_0x (s : List Char) :
    normalize_hex ('0' :: 'x' :: s) = normalize_hex s := by
  have ht : trimPrefix0x ('0' :: 'x' :: s) = trimPrefix0x s := by
    rw [trimPrefix0x_cons_cons]; exact if_pos ⟨rfl, rfl⟩
  unfold normalize_hex
  rw [ht]

theorem from_str_congr (s t : List Char)
    (h : normalize_hex s = normalize_hex t) : Fr.from_str s = Fr.from_str t := by
  unfold Fr.from_str
  rw [h]

/-!
Batch-inversion machinery: prefix products and buffer lemmas.
-/

/-- Product of the inputs up to and including index `i` (the spec's
prefix-product sequence `P[i]`). -/
def partialProd (vals : List Fr) (i : Nat) : Fr := (vals.take (i + 1)).prod

theorem getD_set_self {α : Type} (l : List α) (i : Nat) (a d : α)
    (h : i < l.length) : (l.set i a).getD i d = a := by
  rw [List.getD_eq_getElem _ d (by simpa using h)]
  exact List.getElem_set_self (by simpa using h)

theorem getD_set_other {α : Type} (l : List α) (i j : Nat) (a d : α)
    (h : i ≠ j) : (l.set i a).getD j d = l.getD j d := by
  by_cases hj : j < l.length
  · rw [List.getD_eq_getElem _ d (by simpa using hj), List.getD_eq_getElem _ d hj]
    exact List.getElem_set_ne h _
  · have h1 : l.length ≤ j := Nat.le_of_not_lt hj
    rw [List.getD_eq_getElem?_getD, List.getD_eq_getElem?_getD]
    rw [List.getElem?_eq_none (by simpa using h1), List.getElem?_eq_none h1]

theorem partialProd_zero (vals : List Fr) (h : 0 < vals.length) :
    partialProd vals 0 = vals.getD 0 0 := by
  match vals with
  | [] => simp at h
  | v :: rest => simp [partialProd]

theorem partialProd_succ (vals : List Fr) (i : Nat) (h : i + 1 < vals.length) :
    partialProd vals (i + 1) = partialProd vals i * vals.getD (i + 1) 0 := by
  unfold partialProd
  have h2 : vals.take (i + 1 + 1) = vals.take (i + 1) ++ [vals.getD (i + 1) 0] := by
    rw [List.take_succ, List.getElem?_eq_getElem h, List.getD_eq_getElem _ _ h]
    simp
  rw [h2, List.prod_append]
  simp

theorem partialProd_ne_zero (vals : List Fr) (i : Nat)
    (hnz : ∀ v ∈ vals, v ≠ 0) : partialProd vals i ≠ 0 := by
  apply List.prod_ne_zero
  intro h0
  exact hnz 0 (List.take_subset _ _ h0) rfl

theorem partialProd_last (vals : List Fr) (h : 0 < vals.length) :
    partialProd vals (vals.length - 1) = vals.prod := by
  unfold partialProd
  rw [show vals.length - 1 + 1 = vals.length by omega, List.take_length]

theorem getD_mem (vals : List Fr) (i : Nat) (h : i < vals.length) :
    vals.getD i 0 ∈ vals := by
  rw [List.getD_eq_getElem _ _ h]
  exact List.getElem_mem h

/-- Pointwise description of step 1 of `batch_inverse`: after the prefix
loop, slot `i` of the buffer holds `P[i]`, and its length is unchanged. -/
theorem prefixStep_spec (vals out : List Fr) (hlen : vals.length = out.length)
    (hn : 0 < vals.length) :
    (prefixStep vals out).length = out.length ∧
      ∀ i, i < vals.length → (prefixStep vals out).getD i 0 = partialProd vals i := by
  have main : ∀ k, k ≤ vals.length - 1 →
      ((List.range k).foldl
          (fun o j => o.set (j + 1) (o.getD j 0 * vals.getD (j + 1) 0))
          (out.set 0 (vals.getD 0 0))).length = out.length ∧
        (∀ i, i < vals.length → i ≤ k →
          ((List.range k).foldl
              (fun o j => o.set (j + 1) (o.getD j 0 * vals.getD (j + 1) 0))
              (out.set 0 (vals.getD 0 0))).getD i 0 = partialProd vals i) := by
    intro k
    induction k with
    | zero =>
      intro _
      constructor
      · simp
      · intro i hi hik
        have : i = 0 := Nat.le_zero.mp hik
        subst this
        simp only [List.range_zero, List.foldl_nil]
        rw [getD_set_self out 0 _ 0 (by omega), partialProd_zero vals hn]
    | succ k ih =>
      intro hk
      have hk' : k ≤ vals.length - 1 := Nat.le_of_succ_le hk
      obtain ⟨ihlen, ihget⟩ := ih hk'
      rw [List.range_succ, List.foldl_append]
      constructor
      · simp only [List.foldl_cons, List.foldl_nil, List.length_set]
        exact ihlen
      · intro i hi hik
        simp only [List.foldl_cons, List.foldl_nil]
        by_cases hieq : i = k + 1
        · subst hieq
          rw [getD_set_self _ _ _ _ (by rw [ihlen]; omega)]
          rw [ihget k (by omega) (le_refl k)]
          rw [partialProd_succ vals k hi]
        · rw [getD_set_other _ _ _ _ _ (fun hc => hieq hc.symm)]
          exact ihget i hi (by omega)
  have := main (vals.length - 1) (le_refl _)
  obtain ⟨h1, h2⟩ := this
  refine ⟨h1, fun i hi => h2 i hi (by omega)⟩

/-- Loop invariant of step 3 of `batch_inverse`: entering the sweep at
index `j` with accumulator `P[j]⁻¹` and a buffer holding `P[k]` at
`k ≤ j` and `vals[k]⁻¹` above `j`, the sweep ends with `vals[k]⁻¹` at every
`k ≥ 1` and the accumulator equal to `vals[0]⁻¹`. -/
theorem sweepLoop_spec (vals : List Fr) (hnz : ∀ v ∈ vals, v ≠ 0) :
    ∀ (j : Nat) (o : List Fr) (acc : Fr),
      o.length = vals.length → j < vals.length →
      (∀ k, k < vals.length → k ≤ j → o.getD k 0 = partialProd vals k) →
      (∀ k, j < k → k < vals.length → o.getD k 0 = (vals.getD k 0)⁻¹) →
      acc = (partialProd vals j)⁻¹ →
      (sweepLoop vals o acc j).1.length = vals.length ∧
        (sweepLoop vals o acc j).2 = (vals.getD 0 0)⁻¹ ∧
        (∀ k, 0 < k → k < vals.length →
          (sweepLoop vals o acc j).1.getD k 0 = (vals.getD k 0)⁻¹) := by
  intro j
  induction j with
  | zero =>
    intro o acc hlen hj _ habove hacc
    refine ⟨hlen, ?_, ?_⟩
    · show acc = (vals.getD 0 0)⁻¹
      rw [hacc, partialProd_zero vals hj]
    · intro k hk0 hkn
      show o.getD k 0 = (vals.getD k 0)⁻¹
      exact habove k hk0 hkn
  | succ j ih =>
    intro o acc hlen hj hbelow habove hacc
    have hj' : j < vals.length := Nat.lt_of_succ_lt hj
    have hv_ne : vals.getD (j + 1) 0 ≠ 0 := hnz _ (getD_mem vals (j + 1) hj)
    have hp_ne : partialProd vals j ≠ 0 := partialProd_ne_zero vals j hnz
    have hstep : sweepLoop vals o acc (j + 1) =
        sweepLoop vals (o.set (j + 1) (acc * o.getD j 0))
          (acc * vals.getD (j + 1) 0) j := rfl
    rw [hstep]
    have hsucc : partialProd vals (j + 1) = partialProd vals j * vals.getD (j + 1) 0 :=
      partialProd_succ vals j hj
    apply ih
    · rw [List.length_set]; exact hlen
    · exact hj'
    · intro k hkn hkj
      rw [getD_set_other _ _ _ _ _ (by omega)]
      exact hbelow k hkn (by omega)
    · intro k hjk hkn
      by_cases hk : k = j + 1
      · subst hk
        rw [getD_set_self _ _ _ _ (by rw [hlen]; exact hj)]
        rw [hbelow j hj' (by omega), hacc, hsucc, mul_inv_rev]
        rw [mul_assoc, inv_mul_cancel₀ hp_ne, mul_one]
      · rw [getD_set_other _ _ _ _ _ (by omega)]
        exact habove k (by omega) hkn
    · rw [hacc, hsucc, mul_inv_rev]
      rw [mul_comm ((vals.getD (j + 1) 0)⁻¹) ((partialProd vals j)⁻¹)]
      rw [mul_assoc, inv_mul_cancel₀ hv_ne, mul_one]

/-- On all-nonzero input of matching lengths, `batch_inverse` succeeds and
the final buffer is exactly the elementwise field inverse of `vals`. -/
theorem batch_inverse_ok (vals out : List Fr) (hlen : vals.length = out.length)
    (hnz : ∀ v ∈ vals, v ≠ 0) :
    batch_inverse vals out = BatchResult.ok (vals.map (fun v => v⁻¹)) := by
  by_cases h0 : vals.length = 0
  · have hv : vals = [] := List.eq_nil_of_length_eq_zero h0
    have ho : out = [] := List.eq_nil_of_length_eq_zero (by omega)
    subst hv; subst ho
    rfl
  · have hn : 0 < vals.length := Nat.pos_of_ne_zero h0
    obtain ⟨hplen, hpget⟩ := prefixStep_spec vals out hlen hn
    have hlast : (prefixStep vals out).getD (vals.length - 1) 0 = vals.prod := by
      rw [hpget (vals.length - 1) (by omega), partialProd_last vals hn]
    have hprod_ne : vals.prod ≠ 0 := List.prod_ne_zero (fun hm => hnz 0 hm rfl)
    have hinv : Fr.inverse ((prefixStep vals out).getD (vals.length - 1) 0) =
        some (vals.prod)⁻¹ := by
      rw [hlast]
      simp [Fr.inverse, hprod_ne]
    have hsweep := sweepLoop_spec vals hnz (vals.length - 1) (prefixStep vals out)
      (vals.prod)⁻¹ (by omega) (by omega)
      (fun k hk _ => hpget k hk)
      (fun k hk1 hk2 => absurd hk2 (by omega))
      (by rw [partialProd_last vals hn])
    obtain ⟨hslen, hsacc, hsget⟩ := hsweep
    unfold batch_inverse
    rw [if_pos hlen, if_neg h0]
    simp only [hinv]
    congr 1
    apply List.ext_getElem
    · simp only [List.length_set, List.length_map]
      exact hslen
    · intro i h1 h2
      have hi : i < vals.length := by simpa using h2
      have hgetD :
          ((sweepLoop vals (prefixStep vals out) (vals.prod)⁻¹ (vals.length - 1)).1.set 0
            (sweepLoop vals (prefixStep vals out) (vals.prod)⁻¹ (vals.length - 1)).2).getD i 0 =
            (vals.getD i 0)⁻¹ := by
        by_cases hi0 : i = 0
        · subst hi0
          rw [getD_set_self _ _ _ _ (by rw [hslen]; exact hi), hsacc]
        · rw [getD_set_other _ _ _ _ _ (by omega)]
          exact hsget i (by omega) hi
      rw [← List.getD_eq_getElem _ (0 : Fr) h1, hgetD]
      rw [List.getElem_map, ← List.getD_eq_getElem _ (0 : Fr) (by simpa using hi)]

/-- When some input is zero, `batch_inverse` returns the error outcome with
the buffer holding the prefix products written during step 1. -/
theorem batch_inverse_err (vals out : List Fr) (hlen : vals.length = out.length)
    (hz : (0 : Fr) ∈ vals) :
    batch_inverse vals out = BatchResult.err (prefixStep vals out) := by
  have hn : 0 < vals.length := List.length_pos.mpr (List.ne_nil_of_mem hz)
  obtain ⟨hplen, hpget⟩ := prefixStep_spec vals out hlen hn
  have hlast : (prefixStep vals out).getD (vals.length - 1) 0 = vals.prod := by
    rw [hpget (vals.length - 1) (by omega), partialProd_last vals hn]
  have hzero : vals.prod = 0 := List.prod_eq_zero hz
  have hinv : Fr.inverse ((prefixStep vals out).getD (vals.length - 1) 0) = none := by
    rw [hlast, hzero]
    simp [Fr.inverse]
  unfold batch_inverse
  rw [if_pos hlen, if_neg (by omega)]
  simp only [hinv]

/-!
Normalization helper lemmas for `Fr.from_str`.
-/

theorem mem_normalize_hex (s : List Char) (c : Char) (h : c ∈ trimPrefix0x s) :
    c ∈ normalize_hex s := by
  show c ∈ (if (trimPrefix0x s).length % 2 = 1 then '0' :: trimPrefix0x s else trimPrefix0x s)
  by_cases hodd : (trimPrefix0x s).length % 2 = 1
  · rw [if_pos hodd]; exact List.mem_cons_of_mem _ h
  · rw [if_neg hodd]; exact h

theorem normalize_hex_all_hex (s : List Char)
    (h : ∀ c ∈ trimPrefix0x s, isHexDigit c = true) :
    ∀ c ∈ normalize_hex s, isHexDigit c = true := by
  intro c hc
  have hc' : c ∈ (if (trimPrefix0x s).length % 2 = 1
      then '0' :: trimPrefix0x s else trimPrefix0x s) := hc
  by_cases hodd : (trimPrefix0x s).length % 2 = 1
  · rw [if_pos hodd] at hc'
    rcases List.mem_cons.mp hc' with rfl | hmem
    · rfl
    · exact h c hmem
  · rw [if_neg hodd] at hc'
    exact h c hc'

theorem normalize_hex_even (s : List Char) : (normalize_hex s).length % 2 = 0 := by
  show (if (trimPrefix0x s).length % 2 = 1
      then '0' :: trimPrefix0x s else trimPrefix0x s).length % 2 = 0
  by_cases hodd : (trimPrefix0x s).length % 2 = 1
  · rw [if_pos hodd]; simp; omega
  · rw [if_neg hodd]; omega

theorem normalize_hex_length_ge (s : List Char) :
    (trimPrefix0x s).length ≤ (normalize_hex s).length := by
  show (trimPrefix0x s).length ≤ (if (trimPrefix0x s).length % 2 = 1
      then '0' :: trimPrefix0x s else trimPrefix0x s).length
  by_cases hodd : (trimPrefix0x s).length % 2 = 1
  · rw [if_pos hodd]; simp
  · rw [if_neg hodd]

theorem getD_map_inv (vals : List Fr) (i : Nat) (hi : i < vals.length) :
    (vals.map (fun v => v⁻¹)).getD i 0 = (vals.getD i 0)⁻¹ := by
  rw [List.getD_eq_getElem _ _ (by simpa using hi), List.getElem_map,
    ← List.getD_eq_getElem _ _ hi]

/-!
Claim theorems.
-/

/-- Claim C1: for every sequence of non-zero field elements and an output
buffer of matching length, `batch_inverse` succeeds and the resulting buffer
satisfies `out[i] * vals[i] = one()` at every index. -/
theorem batch_inverse_all_nonzero_succeeds (vals out : List Fr)
    (hlen : vals.length = out.length) (hnz : (0 : Fr) ∉ vals) :
    ∃ res, batch_inverse vals out = BatchResult.ok res ∧
      res.length = vals.length ∧
      ∀ i, i < vals.length → res.getD i 0 * vals.getD i 0 = 1 := by
  have hnz' : ∀ v ∈ vals, v ≠ 0 := fun v hv h0 => hnz (h0 ▸ hv)
  refine ⟨vals.map (fun v => v⁻¹), batch_inverse_ok vals out hlen hnz', by simp, ?_⟩
  intro i hi
  rw [getD_map_inv vals i hi, inv_mul_cancel₀ (hnz' _ (getD_mem vals i hi))]

theorem batch_inverse_all_nonzero_succeeds_witness :
    ([(5 : Fr), 7].length = ([1, 1] : List Fr).length) ∧
    ((0 : Fr) ∉ [(5 : Fr), 7]) ∧
    (∃ res, batch_inverse [(5 : Fr), 7] [1, 1] = BatchResult.ok res ∧
      res.length = [(5 : Fr), 7].length ∧
      ∀ i, i < [(5 : Fr), 7].length → res.getD i 0 * [(5 : Fr), 7].getD i 0 = 1) :=
  ⟨by decide, by decide,
    batch_inverse_all_nonzero_succeeds [5, 7] [1, 1] (by decide) (by decide)⟩

/-- Claim C2 counterexample: on input `[0]` with output buffer `[1]` the call
returns an error, but the buffer has been overwritten with the prefix
product `0` — it is not left unchanged as the claim states. -/
theorem batch_inverse_zero_changes_buffer_cex :
    batch_inverse [(0 : Fr)] [(1 : Fr)] = BatchResult.err [(0 : Fr)] ∧
      ([(0 : Fr)] : List Fr) ≠ [(1 : Fr)] := by decide

/-- Claim C2 (amended): with a zero among the inputs, `batch_inverse` fails
as a whole — it returns an error and never the success outcome — but the
output buffer is not left unchanged: at the failure point it holds the
prefix products `P[i]` written during step 1. -/
theorem batch_inverse_zero_fails_atomically (vals out : List Fr)
    (hlen : vals.length = out.length) (hz : (0 : Fr) ∈ vals) :
    batch_inverse vals out = BatchResult.err (prefixStep vals out) ∧
      (∀ res, batch_inverse vals out ≠ BatchResult.ok res) ∧
      ∀ i, i < vals.length → (prefixStep vals out).getD i 0 = partialProd vals i := by
  have herr := batch_inverse_err vals out hlen hz
  have hn : 0 < vals.length := List.length_pos.mpr (List.ne_nil_of_mem hz)
  refine ⟨herr, ?_, (prefixStep_spec vals out hlen hn).2⟩
  intro res hok
  rw [herr] at hok
  exact BatchResult.noConfusion hok

theorem batch_inverse_zero_fails_atomically_witness :
    ([(5 : Fr), 0, 7].length = ([1, 1, 1] : List Fr).length) ∧
    ((0 : Fr) ∈ [(5 : Fr), 0, 7]) ∧
    (batch_inverse [(5 : Fr), 0, 7] [1, 1, 1] =
        BatchResult.err (prefixStep [(5 : Fr), 0, 7] [1, 1, 1]) ∧
      (∀ res, batch_inverse [(5 : Fr), 0, 7] [1, 1, 1] ≠ BatchResult.ok res) ∧
      ∀ i, i < [(5 : Fr), 0, 7].length →
        (prefixStep [(5 : Fr), 0, 7] [1, 1, 1]).getD i 0 =
          partialProd [(5 : Fr), 0, 7] i) :=
  ⟨by decide, by decide,
    batch_inverse_zero_fails_atomically [5, 0, 7] [1, 1, 1] (by decide) (by decide)⟩

/-- Claim C6: on all-nonzero input the batch result agrees, element by
element and byte-for-byte under `to_bytes`, with calling the single-element
`inverse` on each input independently. -/
theorem batch_inverse_refines_single_inverse (vals out : List Fr)
    (hlen : vals.length = out.length) (hnz : (0 : Fr) ∉ vals) :
    ∃ res, batch_inverse vals out = BatchResult.ok res ∧
      res.length = vals.length ∧
      ∀ i, i < vals.length → ∃ y, Fr.inverse (vals.getD i 0) = some y ∧
        Fr.to_bytes (res.getD i 0) = Fr.to_bytes y := by
  have hnz' : ∀ v ∈ vals, v ≠ 0 := fun v hv h0 => hnz (h0 ▸ hv)
  refine ⟨vals.map (fun v => v⁻¹), batch_inverse_ok vals out hlen hnz', by simp, ?_⟩
  intro i hi
  have hv : vals.getD i 0 ≠ 0 := hnz' _ (getD_mem vals i hi)
  refine ⟨(vals.getD i 0)⁻¹, ?_, ?_⟩
  · simp only [Fr.inverse, if_neg hv]
  · rw [getD_map_inv vals i hi]

theorem batch_inverse_refines_single_inverse_witness :
    ([(2 : Fr), 3].length = ([5, 5] : List Fr).length) ∧
    ((0 : Fr) ∉ [(2 : Fr), 3]) ∧
    (∃ res, batch_inverse [(2 : Fr), 3] [5, 5] = BatchResult.ok res ∧
      res.length = [(2 : Fr), 3].length ∧
      ∀ i, i < [(2 : Fr), 3].length → ∃ y, Fr.inverse ([(2 : Fr), 3].getD i 0) = some y ∧
        Fr.to_bytes (res.getD i 0) = Fr.to_bytes y) :=
  ⟨by decide, by decide,
    batch_inverse_refines_single_inverse [2, 3] [5, 5] (by decide) (by decide)⟩

/-- Claim C9: on the empty input sequence with an empty output buffer,
`batch_inverse` succeeds and returns the empty sequence. -/
theorem batch_inverse_empty_ok : batch_inverse [] [] = BatchResult.ok [] := by decide

/-- Claim C3 counterexample: on non-hex input (the spec's own scenarios
`"zz"` and `"0x" ++ 66 hex digits`, i.e. 33 decoded bytes) `from_str` does
not return a recoverable error value — it aborts (panics). -/
theorem from_str_panic_cex :
    Fr.from_str ['z', 'z'] = FrResult.panic ∧
    Fr.from_str ('0' :: 'x' :: List.replicate 66 'f') = FrResult.panic := by decide

/-- Claim C3 (amended): for every input containing a non-hex-digit character
after the stripped prefix, or whose digits decode to more than 32 bytes,
`from_str` panics (program abort); the function returns `Self`, so no
structured error value is ever produced for the caller. -/
theorem from_str_aborts_on_bad_input (s : List Char) :
    ((∃ c ∈ trimPrefix0x s, isHexDigit c = false) → Fr.from_str s = FrResult.panic) ∧
    ((∀ c ∈ trimPrefix0x s, isHexDigit c = true) → 64 < (trimPrefix0x s).length →
      Fr.from_str s = FrResult.panic) := by
  constructor
  · rintro ⟨c, hc, hbad⟩
    have hnone : hexDecode (normalize_hex s) = none :=
      hexDecode_none_of_bad _ ⟨c, mem_normalize_hex s c hc, hbad⟩
    simp only [Fr.from_str, hnone]
  · intro hall hlen
    obtain ⟨bs, hbs, hbslen⟩ :=
      hexDecode_some_of_good _ (normalize_hex_even s) (normalize_hex_all_hex s hall)
    have hge := normalize_hex_length_ge s
    have hev := normalize_hex_even s
    have h33 : ¬ bs.length ≤ 32 := by omega
    simp only [Fr.from_str, hbs, if_neg h33]

theorem from_str_aborts_on_bad_input_witness :
    (∃ c ∈ trimPrefix0x ['0', 'x', 'z', 'z'], isHexDigit c = false) ∧
    Fr.from_str ['0', 'x', 'z', 'z'] = FrResult.panic :=
  ⟨by decide, (from_str_aborts_on_bad_input ['0', 'x', 'z', 'z']).1 (by decide)⟩

/-- Claim C4 (code bug, flagged by the spec's own §9 note): `pow` drops the
high 64 bits of its `u128` exponent (`bits[0] = exp as u64`). At the failing
input `x = 2`, `exp = 2^64` the code computes `2^0 = 1`, while a correct
full-width exponentiation yields `2^(2^64) mod p ≠ 1`. -/
theorem pow_truncates_u128_exponent :
    Fr.pow 2 (2 ^ 64) = 1 ∧ (2 : Fr) ^ ((2 : Nat) ^ 64) ≠ 1 := by
  constructor
  · show (2 : Fr) ^ ((2 : Nat) ^ 64 % 2 ^ 64) = 1
    rw [Nat.mod_self, pow_zero]
  · have h := pow_ne_one_of_powMod frModulus 2 (2 ^ 64) (by decide) (by decide)
    simpa using h

/-- Claim C5: `from_bytes` inverts `to_bytes` on every field element, and
`to_bytes (from_bytes b)` is the canonical 32-byte big-endian encoding of
`value(b) mod p` — 32 bytes, all below 256, of value `value(b) mod p` —
equal to `b` itself exactly when `value(b) < p`. -/
theorem bytes_roundtrip_canonical :
    (∀ x : Fr, Fr.from_bytes (Fr.to_bytes x) = x) ∧
    (∀ b : List Nat, b.length = 32 → (∀ d ∈ b, d < 256) →
      Fr.to_bytes (Fr.from_bytes b) = natToBytesBE 32 (bytesToNatBE b % frModulus) ∧
      bytesToNatBE (Fr.to_bytes (Fr.from_bytes b)) = bytesToNatBE b % frModulus ∧
      (Fr.to_bytes (Fr.from_bytes b) = b ↔ bytesToNatBE b < frModulus)) := by
  have hplt : frModulus < 256 ^ 32 := by decide
  constructor
  · intro x
    show ((bytesToNatBE (natToBytesBE 32 x.val) : Nat) : Fr) = x
    rw [bytesToNatBE_natToBytesBE 32 x.val (lt_trans (ZMod.val_lt x) hplt)]
    exact ZMod.natCast_rightInverse x
  · intro b hb1 hb2
    have hval : (Fr.from_bytes b).val = bytesToNatBE b % frModulus := ZMod.val_natCast _
    have hto : Fr.to_bytes (Fr.from_bytes b) =
        natToBytesBE 32 (bytesToNatBE b % frModulus) := by
      show natToBytesBE 32 (Fr.from_bytes b).val = _
      rw [hval]
    have hmodlt : bytesToNatBE b % frModulus < 256 ^ 32 :=
      lt_trans (Nat.mod_lt _ (by decide)) hplt
    have hback : bytesToNatBE (Fr.to_bytes (Fr.from_bytes b)) =
        bytesToNatBE b % frModulus := by
      rw [hto, bytesToNatBE_natToBytesBE 32 _ hmodlt]
    refine ⟨hto, hback, ?_, ?_⟩
    · intro he
      rw [he] at hback
      have := Nat.mod_lt (bytesToNatBE b) (show 0 < frModulus by decide)
      omega
    · intro hlt
      rw [hto, Nat.mod_eq_of_lt hlt, ← hb1, natToBytesBE_bytesToNatBE b hb2]

theorem bytes_roundtrip_canonical_witness :
    (List.replicate 32 (255 : Nat)).length = 32 ∧
    (∀ d ∈ List.replicate 32 (255 : Nat), d < 256) ∧
    (Fr.to_bytes (Fr.from_bytes (List.replicate 32 255)) =
        natToBytesBE 32 (bytesToNatBE (List.replicate 32 255) % frModulus) ∧
      bytesToNatBE (Fr.to_bytes (Fr.from_bytes (List.replicate 32 255))) =
        bytesToNatBE (List.replicate 32 255) % frModulus ∧
      (Fr.to_bytes (Fr.from_bytes (List.replicate 32 255)) = List.replicate 32 255 ↔
        bytesToNatBE (List.replicate 32 255) < frModulus)) :=
  ⟨by decide, by decide,
    bytes_roundtrip_canonical.2 (List.replicate 32 255) (by decide) (by decide)⟩

/-- Claim C7: an odd digit count is handled by conceptually prepending a
single `'0'` digit, with or without the `0x` prefix, and the claim's own
examples: `"0xabc"` decodes like `"0x0abc"`, and `"0x1"`, `"0x01"`,
`from_u64 1` all agree; odd length alone never causes a failure. -/
theorem from_str_odd_length_normalizes :
    (∀ ds : List Char, (∀ c ∈ ds, isHexDigit c = true) → ds.length % 2 = 1 →
      Fr.from_str ds = Fr.from_str ('0' :: ds) ∧
      Fr.from_str ('0' :: 'x' :: ds) = Fr.from_str ('0' :: 'x' :: '0' :: ds)) ∧
    Fr.from_str ['0', 'x', 'a', 'b', 'c'] = Fr.from_str ['0', 'x', '0', 'a', 'b', 'c'] ∧
    Fr.from_str ['0', 'x', '1'] = Fr.from_str ['0', 'x', '0', '1'] ∧
    Fr.from_str ['0', 'x', '1'] = FrResult.ok (Fr.from_u64 1) := by
  refine ⟨?_, by decide, by decide, by decide⟩
  intro ds hall hodd
  have hnorm : normalize_hex ds = normalize_hex ('0' :: ds) := by
    have htrim : trimPrefix0x ds = ds := trimPrefix0x_eq_self ds hall
    have hall0 : ∀ c ∈ '0' :: ds, isHexDigit c = true := by
      intro c hc
      rcases List.mem_cons.mp hc with rfl | hc'
      · rfl
      · exact hall c hc'
    have htrim0 : trimPrefix0x ('0' :: ds) = '0' :: ds := trimPrefix0x_eq_self _ hall0
    show (if (trimPrefix0x ds).length % 2 = 1
        then '0' :: trimPrefix0x ds else trimPrefix0x ds) =
      (if (trimPrefix0x ('0' :: ds)).length % 2 = 1
        then '0' :: trimPrefix0x ('0' :: ds) else trimPrefix0x ('0' :: ds))
    rw [htrim, htrim0, if_pos hodd, if_neg (by simp only [List.length_cons]; omega)]
  constructor
  · exact from_str_congr _ _ hnorm
  · calc Fr.from_str ('0' :: 'x' :: ds)
        = Fr.from_str ds := from_str_congr _ _ (normalize_hex_0x ds)
      _ = Fr.from_str ('0' :: ds) := from_str_congr _ _ hnorm
      _ = Fr.from_str ('0' :: 'x' :: '0' :: ds) :=
          (from_str_congr _ _ (normalize_hex_0x ('0' :: ds))).symm

theorem from_str_odd_length_normalizes_witness :
    (∀ c ∈ ['a', 'b', 'c'], isHexDigit c = true) ∧
    ['a', 'b', 'c'].length % 2 = 1 ∧
    (Fr.from_str ['a', 'b', 'c'] = Fr.from_str ['0', 'a', 'b', 'c'] ∧
      Fr.from_str ['0', 'x', 'a', 'b', 'c'] = Fr.from_str ['0', 'x', '0', 'a', 'b', 'c']) :=
  ⟨by decide, by decide,
    from_str_odd_length_normalizes.1 ['a', 'b', 'c'] (by decide) (by decide)⟩

/-- Claim C8 counterexample: the `0X` (uppercase) prefix is not stripped —
`trim_start_matches("0x")` is case-sensitive — so `from_str "0Xab"` panics
instead of agreeing with `from_str "0xab"`. -/
theorem from_str_uppercase_prefix_cex :
    Fr.from_str ['0', 'X', 'a', 'b'] = FrResult.panic ∧
    Fr.from_str ['0', 'x', 'a', 'b'] ≠ Fr.from_str ['0', 'X', 'a', 'b'] := by decide

/-- Claim C8 (amended): hex digits are case-insensitive and a lowercase `0x`
prefix is accepted and ignored, but an uppercase `0X` prefix is not
stripped: it makes `from_str` panic on the non-digit `X`. -/
theorem from_str_prefix_handling (ds : List Char)
    (hall : ∀ c ∈ ds, isHexDigit c = true) :
    Fr.from_str ('0' :: 'x' :: ds) = Fr.from_str ds ∧
    Fr.from_str ('0' :: 'X' :: ds) = FrResult.panic := by
  constructor
  · exact from_str_congr _ _ (normalize_hex_0x ds)
  · have htrim : trimPrefix0x ('0' :: 'X' :: ds) = '0' :: 'X' :: ds := by
      rw [trimPrefix0x_cons_cons, if_neg]
      rintro ⟨_, hX⟩
      exact absurd hX (by decide)
    have hX : 'X' ∈ trimPrefix0x ('0' :: 'X' :: ds) := by
      rw [htrim]
      exact List.mem_cons_of_mem _ (List.mem_cons_self _ _)
    have hnone : hexDecode (normalize_hex ('0' :: 'X' :: ds)) = none :=
      hexDecode_none_of_bad _ ⟨'X', mem_normalize_hex _ _ hX, by decide⟩
    simp only [Fr.from_str, hnone]

theorem from_str_prefix_handling_witness :
    (∀ c ∈ ['A', 'B'], isHexDigit c = true) ∧
    (Fr.from_str ['0', 'x', 'A', 'B'] = Fr.from_str ['A', 'B'] ∧
      Fr.from_str ['0', 'X', 'A', 'B'] = FrResult.panic) :=
  ⟨by decide, from_str_prefix_handling ['A', 'B'] (by decide)⟩

/-- Claim C10: a zero exponent yields the multiplicative identity for every
base, the zero element included, so `pow(0, 0) = one()`. -/
theorem pow_zero_exponent_is_one :
    (∀ x : Fr, Fr.pow x 0 = 1) ∧ Fr.pow 0 0 = 1 := by
  constructor
  · intro x
    show x ^ ((0 : Nat) % 2 ^ 64) = 1
    rw [Nat.zero_mod, pow_zero]
  · show (0 : Fr) ^ ((0 : Nat) % 2 ^ 64) = 1
    rw [Nat.zero_mod, pow_zero]
